import Mathlib

/-!
Verification of the caco-alch potion builder core: the ingredient registry
(IngredientCache.hpp), the potion aggregator (Potion.hpp) and the effect
filtering / match predicate of the render engine (Format.hpp), shallowly
embedded in Lean.  Strings are modelled as lists of characters, C++ doubles
as rationals, and the std::set registry as a strictly sorted list.
-/

/-- Strings from the C++ source (std::string) are modelled as lists of
characters. -/
abbrev Str := List Char

/-- Modelled from the spec: str::tolower is part of an external string
library not present in the repository; the spec uses it only for
case-insensitive comparison, so it is modelled as per-character
lowercasing. -/
def lowerStr (s : Str) : Str := s.map Char.toLower

/-- Helper for the std::string::find model: does the haystack start with the
needle? -/
def headMatches : Str → Str → Bool
  | _, [] => true
  | [], _ :: _ => false
  | a :: as, b :: bs => a = b && headMatches as bs

/-- Model of std::string::find: index of the first occurrence of the needle
in the haystack, or none (npos). -/
def strFind : Str → Str → Option Nat
  | [], needle => if headMatches [] needle then some 0 else none
  | h :: t, needle =>
      if headMatches (h :: t) needle then some 0
      else (strFind t needle).map (· + 1)

/-- The condition the source writes as hay.find(needle) < hay.size(). -/
def substrCond (hay needle : Str) : Bool :=
  match strFind hay needle with
  | some i => decide (i < hay.length)
  | none => false

/-- Modelled from the spec: the Effect record of the data model (the file
Ingredient.hpp defining it is not in the repository); fields are exactly the
ones the present sources access (_name, _magnitude, _duration, _keywords).
Keywords are reduced to their name strings.  Constructing an Effect from
name, magnitude and duration alone (as Potion.hpp line 75 does) leaves the
keyword set empty, matching C++ aggregate initialization. -/
structure Effect where
  _name : Str
  _magnitude : ℚ
  _duration : ℕ
  _keywords : List Str
deriving DecidableEq, Repr

/-- Modelled from the spec: the Ingredient record (name plus effect slots);
the 4-slot array is modelled as a list, with length-4 assumptions made
explicit where a claim needs them. -/
structure Ingredient where
  _name : Str
  _effects : List Effect
deriving DecidableEq, Repr

/-- Embedding of OutputFormat::match (Format.hpp line 50): in exact mode
plain equality, otherwise equality or the find-based substring test.  Both
arguments are used exactly as supplied, without lowercasing. -/
def matchPred : Bool → Str → Str → Bool
  | true, objName, searchName => objName = searchName
  | false, objName, searchName => objName = searchName || substrCond objName searchName

/- ------------------------------------------------------------------ -/
/- Render engine: effect filtering (Format.hpp) -/

/-- Embedding of Formatter::vectorize_effects (Format.hpp lines 121-135):
walk the effect slots; when quiet mode is off every effect is kept,
otherwise an effect is kept when its lowercased name satisfies the match
predicate against at least one search string.  There is no early stop. -/
def vectorize_effects (flagExact flagQuiet : Bool)
    (effects : List Effect) (search_strings : List Str) : List Effect :=
  match effects with
  | [] => []
  | fx :: rest =>
    if !flagQuiet then
      fx :: vectorize_effects flagExact flagQuiet rest search_strings
    else if search_strings.any
        (fun search_str => matchPred flagExact (lowerStr fx._name) search_str) then
      fx :: vectorize_effects flagExact flagQuiet rest search_strings
    else vectorize_effects flagExact flagQuiet rest search_strings

/-- Embedding of Format::get_fx (Format.hpp lines 397-411): same filtering as
vectorize_effects, but in quiet mode a successful match additionally breaks
out of the loop when the exact flag is set. -/
def get_fx (flagExact flagQuiet : Bool) :
    List Effect → List Str → List Effect
  | [], _ => []
  | fx :: rest, names_lowercase =>
    if !flagQuiet then
      fx :: get_fx flagExact flagQuiet rest names_lowercase
    else if names_lowercase.any
        (fun nm => matchPred flagExact (lowerStr fx._name) nm) then
      if flagExact then [fx]
      else fx :: get_fx flagExact flagQuiet rest names_lowercase
    else get_fx flagExact flagQuiet rest names_lowercase

/- ------------------------------------------------------------------ -/
/- Potion aggregator (Potion.hpp) -/

/-- The in-place update get_common_effects performs on an already-confirmed
common entry: magnitude and duration are each raised to the incoming value
when it is strictly larger (Potion.hpp lines 36-39). -/
def bumpEffect (c fx : Effect) : Effect :=
  { c with
    _magnitude := if fx._magnitude > c._magnitude then fx._magnitude else c._magnitude,
    _duration := if fx._duration > c._duration then fx._duration else c._duration }

/-- Model of the in-place update performed by get_common_effects on the
first entry of the common buffer whose name equals the incoming effect. -/
def updateFirst : List Effect → Effect → List Effect
  | [], _ => []
  | c :: cs, fx =>
    if c._name = fx._name then bumpEffect c fx :: cs
    else c :: updateFirst cs fx

/-- One iteration of the inner loop of get_common_effects (Potion.hpp lines
26-44) on the state (tmp, common): is_duplicate is a first-match-by-name
scan, a second sighting promotes the record with the larger magnitude
(ties keep the incoming one), later sightings take the running maximum of
magnitude and duration. -/
def gceStep (st : List Effect × List Effect) (fx : Effect) :
    List Effect × List Effect :=
  match st.1.find? (fun it => it._name = fx._name) with
  | some dupl =>
    match st.2.find? (fun it => it._name = fx._name) with
    | none => (st.1, st.2 ++ [if fx._magnitude < dupl._magnitude then dupl else fx])
    | some _ => (st.1, updateFirst st.2 fx)
  | none => (st.1 ++ [fx], st.2)

/-- Embedding of get_common_effects (Potion.hpp lines 15-46): the arity
guard throws for more than 4 or fewer than 2 ingredients, then every effect
of every ingredient is folded through gceStep and the common buffer is
returned. -/
def get_common_effects (ingr : List Ingredient) : Except String (List Effect) :=
  if ingr.length > 4 then .error "Too many ingredients! (Max 4)"
  else if ingr.length < 2 then .error "Not enough ingredients! (Min 2)"
  else .ok (ingr.foldl (fun st i => i._effects.foldl gceStep st)
      (([], []) : List Effect × List Effect)).2

/-- Embedding of Potion::calculate_stats (Potion.hpp lines 69-78): each base
effect is rebuilt from its name, the scaled magnitude and the unchanged
duration.  GameSettings::calculate_magnitude is external and modelled as an
arbitrary function on rationals.  Rebuilding from three fields leaves the
keyword set empty. -/
def calculate_stats (base : List Effect) (gs : ℚ → ℚ) : List Effect :=
  base.map (fun it =>
    { _name := it._name, _magnitude := gs it._magnitude,
      _duration := it._duration, _keywords := [] })

deriving instance DecidableEq for Except

/-- The Potion entity: base effects from get_common_effects and final
effects from calculate_stats (Potion.hpp lines 48-84). -/
structure Potion where
  _name : Str
  _base_fx : List Effect
  _fx : List Effect
deriving DecidableEq, Repr

/-- Potion construction (the Potion constructors of Potion.hpp lines 81-84),
with the exception of get_common_effects surfaced as an Except value. -/
def mkPotion (name : Str) (ingredients : List Ingredient) (gs : ℚ → ℚ) :
    Except String Potion :=
  match get_common_effects ingredients with
  | .error e => .error e
  | .ok base => .ok { _name := name, _base_fx := base, _fx := calculate_stats base gs }

/- ------------------------------------------------------------------ -/
/- Ingredient registry (IngredientCache.hpp) -/

/-- Modelled from the spec: the comparator _internal::less of Ingredient
(defined in a header absent from the repository) orders ingredients by name
with the default case-sensitive lexicographic less-than (spec 4.1). -/
def ingrLess (a b : Ingredient) : Prop := a._name < b._name

instance : DecidableRel ingrLess := fun a b =>
  inferInstanceAs (Decidable (a._name < b._name))

/-- Model of std::set insertion under ingrLess on a strictly sorted list:
inserting an element whose key is already present leaves the list unchanged
and reports false, mirroring the existing-entry-untouched semantics used by
IngredientCache::sort. -/
def setInsert : List Ingredient → Ingredient → List Ingredient × Bool
  | [], x => ([x], true)
  | y :: ys, x =>
    if x._name < y._name then (x :: y :: ys, true)
    else if y._name < x._name then
      let res := setInsert ys x
      (y :: res.1, res.2)
    else (y :: ys, false)

/-- Embedding of IngredientCache::sort (IngredientCache.hpp lines 60-68):
fold the raw list through set insertion, counting every rejected (duplicate)
insertion. -/
def sortStep (acc : List Ingredient × ℕ) (it : Ingredient) : List Ingredient × ℕ :=
  let res := setInsert acc.1 it
  (res.1, if res.2 then acc.2 else acc.2 + 1)

def cacheSort (ingr_cont : List Ingredient) : List Ingredient × ℕ :=
  ingr_cont.foldl sortStep ([], 0)

/-- Embedding of IngredientCache::get (IngredientCache.hpp lines 78-85): a
find_if scan from the offset position; the name comparison is exact and the
effect comparison applies the active match predicate to the lowercased
effect name and the query exactly as supplied.  The predicate named pred in
the source is defined in a header absent from the repository and is
modelled from the spec (4.4) as OutputFormat::match with the exact flag. -/
def getPred (flagExact : Bool) (name : Str) (only_effects : Bool)
    (i : Ingredient) : Bool :=
  if only_effects then
    i._effects.any (fun fx => matchPred flagExact (lowerStr fx._name) name)
  else i._name = name

def cacheGet (flagExact : Bool) (cache : List Ingredient) (name : Str)
    (off : ℕ) (only_effects : Bool) : Option Ingredient :=
  (cache.drop off).find? (getPred flagExact name only_effects)

/-- The scope selector of RegistryType (IngredientCache.hpp lines 147-151). -/
inductive FindType
  | BOTH
  | INGR
  | EFFECT
deriving DecidableEq, Repr

/-- The inner effect loop of find_best_fit (BOTH and EFFECT scopes): none
signals an exact effect-name match (immediate return of the ingredient),
otherwise the list of candidate pushes made for substring matches. -/
def fxLoop (name : Str) (it : Ingredient) : List Effect → Option (List Ingredient)
  | [] => some []
  | fx :: rest =>
    let lc := lowerStr fx._name
    if lc = name then none
    else if substrCond lc name then (fxLoop name it rest).map (it :: ·)
    else fxLoop name it rest

/-- The scanning loop of RegistryType::find_best_fit (IngredientCache.hpp
lines 211-256) carrying the collected candidate vector; the query is used
exactly as supplied while entry names are lowercased. -/
def fbfGo (name : Str) (ft : FindType) :
    List Ingredient → List Ingredient → Option Ingredient
  | [], vec => vec.head?
  | it :: more, vec =>
    let name_lc := lowerStr it._name
    match ft with
    | .INGR =>
      if name_lc = name then some it
      else if substrCond name_lc name then fbfGo name ft more (vec ++ [it])
      else fbfGo name ft more vec
    | .BOTH =>
      if name_lc = name then some it
      else if substrCond name_lc name then fbfGo name ft more (vec ++ [it])
      else
        match fxLoop name it it._effects with
        | none => some it
        | some pushes => fbfGo name ft more (vec ++ pushes)
    | .EFFECT =>
      match fxLoop name it it._effects with
      | none => some it
      | some pushes => fbfGo name ft more (vec ++ pushes)

/-- Embedding of RegistryType::find_best_fit: scan the registry in order
with an empty candidate vector; none models the end-of-collection
sentinel. -/
def find_best_fit (cache : List Ingredient) (name : Str) (ft : FindType) :
    Option Ingredient :=
  fbfGo name ft cache []
/- ------------------------------------------------------------------ -/
/- Reference characterization of the effect merge, stated per name over
the flattened effect stream -/

instance : Inhabited Effect := ⟨⟨[], 0, 0, []⟩⟩

/-- The flattened stream of effect sightings: every effect slot of every
ingredient in input order, exactly the order the nested loops of
get_common_effects walk. -/
def effectStream (ingr : List Ingredient) : List Effect :=
  ingr.foldr (fun i acc => i._effects ++ acc) []

/-- All sightings of a given effect name in the stream, in order. -/
def sightings (stream : List Effect) (n : Str) : List Effect :=
  stream.filter (fun e => e._name = n)

/-- The maximum magnitude over all sightings of a name (0 when absent). -/
def maxMagOf (stream : List Effect) (n : Str) : ℚ :=
  match sightings stream n with
  | [] => 0
  | s :: rest => rest.foldl (fun m e => max m e._magnitude) s._magnitude

/-- The duration get_common_effects attaches to a merged effect: the
promotion takes the duration of whichever of the first two sightings has
the larger magnitude (the second on ties), and every later sighting takes
the running maximum. -/
def durOf (stream : List Effect) (n : Str) : ℕ :=
  match sightings stream n with
  | s1 :: s2 :: rest =>
      rest.foldl (fun d e => max d e._duration)
        (if s2._magnitude < s1._magnitude then s1._duration else s2._duration)
  | _ => 0

/-- The maximum duration over all sightings of a name (0 when absent);
this is what the original merge description asserts and what the code does
not compute. -/
def maxDurAll (stream : List Effect) (n : Str) : ℕ :=
  match sightings stream n with
  | [] => 0
  | s :: rest => rest.foldl (fun d e => max d e._duration) s._duration

/-- First-confirmation order: the names of the stream positions at which a
name reaches its second sighting. -/
def confirmationOrder (stream : List Effect) : List Str :=
  ((List.range stream.length).filter
    (fun i => (stream.take (i + 1)).countP
      (fun e => e._name = (stream.getD i default)._name) = 2)).map
    (fun i => (stream.getD i default)._name)
/- ------------------------------------------------------------------ -/
/- String lemmas -/

theorem headMatches_iff (hay needle : Str) :
    headMatches hay needle = true ↔ ∃ r, hay = needle ++ r := by
  induction needle generalizing hay with
  | nil => simp [headMatches]
  | cons b bs ih =>
    cases hay with
    | nil =>
      simp [headMatches]
    | cons a as =>
      simp only [headMatches, Bool.and_eq_true, decide_eq_true_eq, ih,
        List.cons_append, List.cons.injEq]
      constructor
      · rintro ⟨rfl, r, rfl⟩; exact ⟨r, rfl, rfl⟩
      · rintro ⟨r, rfl, rfl⟩; exact ⟨rfl, r, rfl⟩

theorem strFind_some (hay needle : Str) (i : ℕ)
    (h : strFind hay needle = some i) :
    ∃ s r, hay = s ++ needle ++ r ∧ s.length = i := by
  induction hay generalizing i with
  | nil =>
    rw [strFind] at h
    split at h
    · rename_i hh
      obtain ⟨r, hr⟩ := (headMatches_iff [] needle).mp hh
      refine ⟨[], r, by simpa using hr, ?_⟩
      cases h
      rfl
    · exact absurd h (by simp)
  | cons a as ih =>
    rw [strFind] at h
    split at h
    · rename_i hh
      obtain ⟨r, hr⟩ := (headMatches_iff _ needle).mp hh
      cases h
      exact ⟨[], r, by simpa using hr, rfl⟩
    · rename_i hh
      obtain ⟨j, hj, rfl⟩ := Option.map_eq_some'.mp h
      obtain ⟨s, r, hsr, hlen⟩ := ih j hj
      exact ⟨a :: s, r, by simp [hsr], by simp [hlen]⟩

theorem strFind_isSome (s needle r : Str) :
    (strFind (s ++ needle ++ r) needle).isSome = true := by
  induction s with
  | nil =>
    have hh : headMatches (needle ++ r) needle = true :=
      (headMatches_iff _ _).mpr ⟨r, rfl⟩
    simp only [List.nil_append]
    cases hnr : needle ++ r with
    | nil =>
      rw [hnr] at hh
      rw [strFind, hh]
      rfl
    | cons x xs =>
      rw [hnr] at hh
      rw [strFind, hh]
      rfl
  | cons a as ih =>
    rw [List.cons_append, List.cons_append, strFind]
    split
    · rfl
    · rcases hsf : strFind (as ++ needle ++ r) needle with _ | j
      · rw [hsf] at ih; simp at ih
      · rfl

theorem strFind_none (hay needle : Str) (h : strFind hay needle = none) :
    ¬∃ s r, hay = s ++ needle ++ r := by
  rintro ⟨s, r, rfl⟩
  have := strFind_isSome s needle r
  rw [h] at this
  simp at this

theorem strFind_bound (hay needle : Str) (i : ℕ)
    (h : strFind hay needle = some i) : i + needle.length ≤ hay.length := by
  obtain ⟨s, r, hsr, hlen⟩ := strFind_some hay needle i h
  subst hsr
  simp only [List.length_append]
  omega

/-- In partial (non-exact) mode the match predicate is precisely
case-sensitive containment of the search term in the candidate. -/
theorem matchPred_partial_iff (c t : Str) :
    matchPred false c t = true ↔ ∃ s r, c = s ++ t ++ r := by
  constructor
  · intro h
    simp only [matchPred, Bool.or_eq_true, decide_eq_true_eq] at h
    rcases h with h | h
    · exact ⟨[], [], by simp [h]⟩
    · unfold substrCond at h
      rcases hf : strFind c t with _ | i
      · rw [hf] at h; simp at h
      · obtain ⟨s, r, hsr, _⟩ := strFind_some c t i hf
        exact ⟨s, r, hsr⟩
  · rintro ⟨s, r, rfl⟩
    simp only [matchPred, Bool.or_eq_true, decide_eq_true_eq]
    cases t with
    | nil =>
      rcases hc : s ++ ([] : Str) ++ r with _ | ⟨x, xs⟩
      · left; rfl
      · right
        unfold substrCond
        have h0 : strFind (x :: xs) [] = some 0 := by
          rw [strFind]
          have : headMatches (x :: xs) [] = true := rfl
          rw [this]
          rfl
        rw [h0]
        simp
    | cons b bs =>
      right
      unfold substrCond
      have hsome := strFind_isSome s (b :: bs) r
      split
      · rename_i i hf
        have hb := strFind_bound _ _ i hf
        simp only [List.length_cons] at hb
        simp only [decide_eq_true_eq, List.length_append]
        simp only [List.length_append] at hb
        omega
      · rename_i hf
        rw [hf] at hsome
        simp at hsome


/- ------------------------------------------------------------------ -/
/- Effect filtering lemmas (Format.hpp) -/

theorem vectorize_effects_not_quiet (flagExact : Bool) (effects : List Effect)
    (terms : List Str) : vectorize_effects flagExact false effects terms = effects := by
  induction effects with
  | nil => rfl
  | cons fx rest ih => simp [vectorize_effects, ih]

theorem get_fx_not_quiet (flagExact : Bool) (effects : List Effect)
    (terms : List Str) : get_fx flagExact false effects terms = effects := by
  induction effects with
  | nil => rfl
  | cons fx rest ih => simp [get_fx, ih]

theorem vectorize_effects_quiet (flagExact : Bool) (effects : List Effect)
    (terms : List Str) :
    vectorize_effects flagExact true effects terms =
      effects.filter (fun fx => terms.any
        (fun t => matchPred flagExact (lowerStr fx._name) t)) := by
  induction effects with
  | nil => rfl
  | cons fx rest ih =>
    by_cases hc : terms.any (fun t => matchPred flagExact (lowerStr fx._name) t) = true
    · simp [vectorize_effects, hc, ih, List.filter_cons]
    · simp [vectorize_effects, hc, ih, List.filter_cons]

theorem get_fx_quiet_partial (effects : List Effect) (terms : List Str) :
    get_fx false true effects terms =
      effects.filter (fun fx => terms.any
        (fun t => matchPred false (lowerStr fx._name) t)) := by
  induction effects with
  | nil => rfl
  | cons fx rest ih =>
    by_cases hc : terms.any (fun t => matchPred false (lowerStr fx._name) t) = true
    · simp [get_fx, hc, ih, List.filter_cons]
    · simp [get_fx, hc, ih, List.filter_cons]

theorem get_fx_quiet_exact (effects : List Effect) (terms : List Str) :
    get_fx true true effects terms =
      (effects.filter (fun fx => terms.any
        (fun t => matchPred true (lowerStr fx._name) t))).take 1 := by
  induction effects with
  | nil => rfl
  | cons fx rest ih =>
    by_cases hc : terms.any (fun t => matchPred true (lowerStr fx._name) t) = true
    · simp [get_fx, hc, List.filter_cons]
    · simp [get_fx, hc, ih, List.filter_cons]

/- ------------------------------------------------------------------ -/
/- Claim theorems: C2, C4, C7, C8, C10 -/

/-- C2: get_common_effects fails with a reported precondition violation
exactly when its input has fewer than 2 or more than 4 ingredients, and
returns a result for every input of size 2, 3 or 4. -/
theorem get_common_effects_arity (ingr : List Ingredient) :
    ((∃ e, get_common_effects ingr = .error e) ↔
      ingr.length < 2 ∨ 4 < ingr.length)
    ∧ ((∃ res, get_common_effects ingr = .ok res) ↔
      2 ≤ ingr.length ∧ ingr.length ≤ 4) := by
  unfold get_common_effects
  split_ifs with h4 h2 <;> constructor <;> constructor <;> intro h <;>
    first
      | omega
      | exact ⟨_, rfl⟩
      | (obtain ⟨x, hx⟩ := h; cases hx)

/-- C4: calculate_stats returns a list of the same length whose i-th entry
keeps the i-th base name and duration and carries the settings function
applied to the i-th base magnitude; under the doubling settings function
every magnitude is doubled and every duration is unchanged. -/
theorem calculate_stats_spec (base : List Effect) (gs : ℚ → ℚ) :
    (calculate_stats base gs).length = base.length
    ∧ (∀ i : ℕ,
        ((calculate_stats base gs)[i]?).map Effect._name = (base[i]?).map Effect._name
        ∧ ((calculate_stats base gs)[i]?).map Effect._magnitude
            = (base[i]?).map (fun e => gs e._magnitude)
        ∧ ((calculate_stats base gs)[i]?).map Effect._duration
            = (base[i]?).map Effect._duration)
    ∧ (calculate_stats base (fun x => x * 2)).map Effect._magnitude
        = base.map (fun e => e._magnitude * 2)
    ∧ (calculate_stats base (fun x => x * 2)).map Effect._duration
        = base.map Effect._duration := by
  refine ⟨by simp [calculate_stats], fun i => ?_, ?_, ?_⟩
  · simp only [calculate_stats, List.getElem?_map]
    rcases base[i]? with _ | e <;> exact ⟨rfl, rfl, rfl⟩
  · simp only [calculate_stats, List.map_map]
    rfl
  · simp only [calculate_stats, List.map_map]
    rfl

/-- C7 counterexample: with quiet and exact modes both on,
Formatter::vectorize_effects does not stop after the first qualifying
effect: a 4-slot array with two effects exactly matching the single search
term yields two emitted effects, while Format::get_fx on the same input
yields one. -/
theorem vectorize_effects_no_early_stop_counterexample :
    (vectorize_effects true true
      [⟨"a".toList, 1, 1, []⟩, ⟨"a".toList, 2, 2, []⟩,
       ⟨"b".toList, 3, 3, []⟩, ⟨"c".toList, 4, 4, []⟩]
      [("a".toList)]).length = 2
    ∧ (get_fx true true
      [⟨"a".toList, 1, 1, []⟩, ⟨"a".toList, 2, 2, []⟩,
       ⟨"b".toList, 3, 3, []⟩, ⟨"c".toList, 4, 4, []⟩]
      [("a".toList)]).length = 1 := by decide

/-- C7 (amended): with quiet mode off both filtering routines emit all
effects; with quiet mode on both emit exactly the effects whose lowercased
name satisfies the match predicate against at least one search term, except
that in exact mode Format::get_fx stops after the first qualifying effect
while Formatter::vectorize_effects never stops early. -/
theorem effect_filtering_amended (flagExact : Bool) (effects : List Effect)
    (terms : List Str) :
    vectorize_effects flagExact false effects terms = effects
    ∧ get_fx flagExact false effects terms = effects
    ∧ vectorize_effects flagExact true effects terms =
        effects.filter (fun fx => terms.any
          (fun t => matchPred flagExact (lowerStr fx._name) t))
    ∧ get_fx false true effects terms =
        effects.filter (fun fx => terms.any
          (fun t => matchPred false (lowerStr fx._name) t))
    ∧ get_fx true true effects terms =
        (effects.filter (fun fx => terms.any
          (fun t => matchPred true (lowerStr fx._name) t))).take 1 :=
  ⟨vectorize_effects_not_quiet flagExact effects terms,
   get_fx_not_quiet flagExact effects terms,
   vectorize_effects_quiet flagExact effects terms,
   get_fx_quiet_partial effects terms,
   get_fx_quiet_exact effects terms⟩

/-- C8 counterexample: the match predicate is case-sensitive in partial
mode: match("Toe", "toe") is false although "toe" occurs case-insensitively
in "Toe" (their lowercasings coincide), so containment is not
case-insensitive. -/
theorem matchPred_case_sensitivity_counterexample :
    matchPred false ("Toe".toList) ("toe".toList) = false
    ∧ lowerStr ("Toe".toList) = lowerStr ("toe".toList)
    ∧ matchPred false (lowerStr ("Toe".toList)) ("toe".toList) = true := by decide

/-- C8 (amended): in exact mode the match predicate is true precisely on
equal strings, and in partial mode precisely when the term occurs anywhere
within the candidate under case-sensitive containment (callers obtain
case-insensitive behavior by lowercasing both sides first); in particular
match("toe", "toe") is true in both modes. -/
theorem matchPred_amended (c t : Str) :
    (matchPred true c t = true ↔ c = t)
    ∧ (matchPred false c t = true ↔ ∃ s r, c = s ++ t ++ r)
    ∧ matchPred true ("toe".toList) ("toe".toList) = true
    ∧ matchPred false ("toe".toList) ("toe".toList) = true :=
  ⟨by simp [matchPred], matchPred_partial_iff c t, by decide, by decide⟩

/-- C10: every effect in the final (scaled) effect list of a successfully
built potion has an empty keyword set, because calculate_stats rebuilds
each effect from only its name, magnitude and duration. -/
theorem potion_final_keywords_empty (name : Str) (ingredients : List Ingredient)
    (gs : ℚ → ℚ) (p : Potion) (h : mkPotion name ingredients gs = .ok p) :
    ∀ fx ∈ p._fx, fx._keywords = [] := by
  unfold mkPotion at h
  rcases hg : get_common_effects ingredients with e | base <;> rw [hg] at h
  · cases h
  · cases h
    intro fx hfx
    simp only [calculate_stats, List.mem_map] at hfx
    obtain ⟨e, _, rfl⟩ := hfx
    rfl

/-- C10 witness: in a concrete 2-ingredient potion whose base effect
carries a keyword, the final effect still has no keywords. -/
theorem potion_final_keywords_empty_witness :
    (Effect.mk ("fe".toList) 20 1 [])._keywords = [] :=
  potion_final_keywords_empty ("p".toList)
    [Ingredient.mk ("ia".toList) [Effect.mk ("fe".toList) 20 1 [("kw".toList)]],
     Ingredient.mk ("ib".toList) [Effect.mk ("fe".toList) 10 2 []]]
    (fun x => x)
    (Potion.mk ("p".toList)
      [Effect.mk ("fe".toList) 20 1 [("kw".toList)]]
      [Effect.mk ("fe".toList) 20 1 []])
    (by decide) (Effect.mk ("fe".toList) 20 1 []) (by decide)

/- ------------------------------------------------------------------ -/
/- Generic first-match lemmas for offset scans -/

theorem find_first {α : Type} (l : List α) (p : α → Bool) (x : α)
    (h : l.find? p = some x) :
    p x = true ∧ ∃ j, ∃ hj : j < l.length, x = l[j]
      ∧ ∀ k (hk : k < l.length), k < j → p (l[k]) = false := by
  induction l with
  | nil => cases h
  | cons a t ih =>
    by_cases hpa : p a = true
    · rw [List.find?_cons_of_pos _ hpa] at h
      cases h
      exact ⟨hpa, 0, by simp, by simp, fun k hk hf => absurd hf (by omega)⟩
    · rw [List.find?_cons_of_neg _ hpa] at h
      obtain ⟨hpx, j, hj, hx, hmin⟩ := ih h
      refine ⟨hpx, j + 1, by simpa using hj, by simpa using hx, ?_⟩
      intro k hk hkj
      cases k with
      | zero => simpa using hpa
      | succ k2 =>
        have hk2 : k2 < t.length := by simp at hk; omega
        have := hmin k2 hk2 (by omega)
        simpa using this

theorem find_none_iff {α : Type} (l : List α) (p : α → Bool) :
    l.find? p = none ↔ ∀ j (hj : j < l.length), p (l[j]) = false := by
  rw [List.find?_eq_none]
  constructor
  · intro h j hj
    simpa using h _ (List.getElem_mem hj)
  · intro h x hx
    obtain ⟨j, hj, hget⟩ := List.mem_iff_getElem.mp hx
    have := h j hj
    rw [hget] at this
    simp [this]

theorem find_drop_some {α : Type} (l : List α) (p : α → Bool) (off : ℕ) (x : α)
    (h : (l.drop off).find? p = some x) :
    p x = true ∧ ∃ j, off ≤ j ∧ ∃ hj : j < l.length, x = l[j]
      ∧ ∀ k (hk : k < l.length), off ≤ k → k < j → p (l[k]) = false := by
  obtain ⟨hpx, j0, hj0, hx, hmin⟩ := find_first (l.drop off) p x h
  have hld := List.length_drop off l
  have hj : off + j0 < l.length := by omega
  refine ⟨hpx, off + j0, by omega, hj, ?_, ?_⟩
  · rw [hx, List.getElem_drop]
  · intro k hk hoffk hkj
    have hkd : k - off < (l.drop off).length := by omega
    have hres := hmin (k - off) hkd (by omega)
    rw [List.getElem_drop] at hres
    have hco : off + (k - off) = k := by omega
    simp only [hco] at hres
    exact hres

theorem find_drop_none {α : Type} (l : List α) (p : α → Bool) (off : ℕ) :
    (l.drop off).find? p = none ↔
      ∀ j (hj : j < l.length), off ≤ j → p (l[j]) = false := by
  rw [find_none_iff]
  have hld := List.length_drop off l
  constructor
  · intro h j hj hoffj
    have hjd : j - off < (l.drop off).length := by omega
    have hres := h (j - off) hjd
    rw [List.getElem_drop] at hres
    have hco : off + (j - off) = j := by omega
    simp only [hco] at hres
    exact hres
  · intro h j hj
    have hjl : off + j < l.length := by omega
    rw [List.getElem_drop]
    exact h (off + j) hjl (by omega)

/-- C9 counterexample: IngredientCache::get does not lowercase the query:
with exact matching active, searching effects for "Toe" misses an effect
named "Toe" (compared as lowercase "toe" against the raw query), although
the match predicate applied to the lowercased query would accept it. -/
theorem cacheGet_lowercase_counterexample :
    cacheGet true [Ingredient.mk ("I".toList) [Effect.mk ("Toe".toList) 0 0 []]]
      ("Toe".toList) 0 true = none
    ∧ matchPred true (lowerStr ("Toe".toList)) (lowerStr ("Toe".toList)) = true := by
  decide

/-- C9 (amended): get(name, off, onlyEffects) returns the first entry at or
after the start position satisfying the scan predicate - name equality when
onlyEffects is false, and when true, some effect whose lowercased name
satisfies the active match predicate against the query exactly as supplied
(callers must lowercase the query themselves); it returns the
end-of-collection sentinel when no entry at or after the start position
matches. -/
theorem cacheGet_amended (flagExact : Bool) (cache : List Ingredient)
    (name : Str) (off : ℕ) (only_effects : Bool) :
    (∀ x, cacheGet flagExact cache name off only_effects = some x →
      getPred flagExact name only_effects x = true
      ∧ ∃ j, off ≤ j ∧ ∃ hj : j < cache.length, x = cache[j]
        ∧ ∀ k (hk : k < cache.length), off ≤ k → k < j →
            getPred flagExact name only_effects (cache[k]) = false)
    ∧ (cacheGet flagExact cache name off only_effects = none ↔
        ∀ j (hj : j < cache.length), off ≤ j →
          getPred flagExact name only_effects (cache[j]) = false) :=
  ⟨fun x h => find_drop_some cache (getPred flagExact name only_effects) off x h,
   find_drop_none cache (getPred flagExact name only_effects) off⟩

/-- C9 witness: on a singleton registry whose entry is named "b", the scan
for "b" from position 0 returns that entry at index 0. -/
theorem cacheGet_amended_witness :
    getPred false ("b".toList) false (Ingredient.mk ("b".toList) []) = true
    ∧ ∃ j, 0 ≤ j ∧ ∃ hj : j < [Ingredient.mk ("b".toList) []].length,
        Ingredient.mk ("b".toList) [] = [Ingredient.mk ("b".toList) []][j]
        ∧ ∀ k (hk : k < [Ingredient.mk ("b".toList) []].length), 0 ≤ k → k < j →
            getPred false ("b".toList) false ([Ingredient.mk ("b".toList) []][k]) = false :=
  (cacheGet_amended false [Ingredient.mk ("b".toList) []] ("b".toList) 0 false).1
    (Ingredient.mk ("b".toList) []) (by decide)

/- ------------------------------------------------------------------ -/
/- find_best_fit lemmas -/

theorem substrCond_false_of_no_decomp (hay n : Str)
    (h : ¬∃ s r, hay = s ++ n ++ r) : substrCond hay n = false := by
  unfold substrCond
  split
  · rename_i i hf
    exfalso
    obtain ⟨s, r, hsr, _⟩ := strFind_some hay n i hf
    exact h ⟨s, r, hsr⟩
  · rfl

theorem fbfGo_exact_INGR (name : Str) (rest : List Ingredient)
    (vec : List Ingredient) (j : ℕ) (hj : j < rest.length)
    (hx : lowerStr (rest[j])._name = name)
    (hmin : ∀ k (hk : k < rest.length), k < j → lowerStr (rest[k])._name ≠ name) :
    fbfGo name .INGR rest vec = some (rest[j]) := by
  induction rest generalizing vec j with
  | nil => simp at hj
  | cons it more ih =>
    cases j with
    | zero =>
      simp only [List.getElem_cons_zero] at hx ⊢
      simp [fbfGo, hx]
    | succ j2 =>
      have hne : lowerStr it._name ≠ name := by
        have := hmin 0 (by simp) (by omega)
        simpa using this
      have hj2 : j2 < more.length := by simp at hj; omega
      have hx2 : lowerStr (more[j2])._name = name := by simpa using hx
      have hmin2 : ∀ k (hk : k < more.length), k < j2 →
          lowerStr (more[k])._name ≠ name := by
        intro k hk hkj
        have := hmin (k + 1) (by simp; omega) (by omega)
        simpa using this
      simp only [fbfGo]
      rw [if_neg hne]
      simp only [List.getElem_cons_succ]
      split
      · exact ih (vec ++ [it]) j2 hj2 hx2 hmin2
      · exact ih vec j2 hj2 hx2 hmin2

theorem fbfGo_INGR_no_exact (name : Str) (rest vec : List Ingredient)
    (hne : ∀ i ∈ rest, lowerStr i._name ≠ name) :
    fbfGo name .INGR rest vec
      = (vec ++ rest.filter (fun i => substrCond (lowerStr i._name) name)).head? := by
  induction rest generalizing vec with
  | nil => simp [fbfGo]
  | cons it more ih =>
    have h0 : lowerStr it._name ≠ name := hne it (by simp)
    have htail : ∀ i ∈ more, lowerStr i._name ≠ name := fun i hm => hne i (by simp [hm])
    simp only [fbfGo]
    rw [if_neg h0]
    by_cases hs : substrCond (lowerStr it._name) name = true
    · rw [if_pos hs, ih (vec ++ [it]) htail, List.filter_cons]
      rw [if_pos hs]
      simp
    · rw [if_neg hs, ih vec htail, List.filter_cons]
      rw [if_neg hs]

theorem filter_head_of_first {α : Type} (l : List α) (p : α → Bool) (j : ℕ)
    (hj : j < l.length) (hp : p (l[j]) = true)
    (hmin : ∀ k (hk : k < l.length), k < j → p (l[k]) = false) :
    (l.filter p).head? = some (l[j]) := by
  induction l generalizing j with
  | nil => simp at hj
  | cons a t ih =>
    cases j with
    | zero =>
      simp only [List.getElem_cons_zero] at hp ⊢
      rw [List.filter_cons_of_pos hp]
      rfl
    | succ j2 =>
      have ha : p a = false := by simpa using hmin 0 (by simp) (by omega)
      rw [List.filter_cons_of_neg (by simp [ha])]
      have hj2 : j2 < t.length := by simp at hj; omega
      have hp2 : p (t[j2]) = true := by simpa using hp
      have hmin2 : ∀ k (hk : k < t.length), k < j2 → p (t[k]) = false := by
        intro k hk hkj
        have := hmin (k + 1) (by simp; omega) (by omega)
        simpa using this
      simpa using ih j2 hj2 hp2 hmin2

theorem fxLoop_no_match (name : Str) (it : Ingredient) (effects : List Effect)
    (h : ∀ fx ∈ effects, ¬∃ s r, lowerStr fx._name = s ++ name ++ r) :
    fxLoop name it effects = some [] := by
  induction effects with
  | nil => rfl
  | cons fx rest ih =>
    have h0 := h fx (by simp)
    have hne : ¬(lowerStr fx._name = name) := fun he => h0 ⟨[], [], by simp [he]⟩
    have hsc : substrCond (lowerStr fx._name) name = false :=
      substrCond_false_of_no_decomp _ _ h0
    simp only [fxLoop]
    rw [if_neg hne, if_neg (by simp [hsc])]
    exact ih (fun fx2 hm => h fx2 (by simp [hm]))

theorem fbfGo_none (name : Str) (ft : FindType) (rest vec : List Ingredient)
    (h : ∀ i ∈ rest, (¬∃ s r, lowerStr i._name = s ++ name ++ r)
        ∧ ∀ fx ∈ i._effects, ¬∃ s r, lowerStr fx._name = s ++ name ++ r) :
    fbfGo name ft rest vec = vec.head? := by
  induction rest generalizing vec with
  | nil => rfl
  | cons it more ih =>
    obtain ⟨hn, hfx⟩ := h it (by simp)
    have hne : ¬(lowerStr it._name = name) := fun he => hn ⟨[], [], by simp [he]⟩
    have hsc : substrCond (lowerStr it._name) name = false :=
      substrCond_false_of_no_decomp _ _ hn
    have hloop := fxLoop_no_match name it it._effects hfx
    have htail : ∀ i ∈ more, (¬∃ s r, lowerStr i._name = s ++ name ++ r)
        ∧ ∀ fx ∈ i._effects, ¬∃ s r, lowerStr fx._name = s ++ name ++ r :=
      fun i hm => h i (by simp [hm])
    cases ft with
    | INGR =>
      simp only [fbfGo]
      rw [if_neg hne, if_neg (by simp [hsc])]
      exact ih vec htail
    | BOTH =>
      simp only [fbfGo]
      rw [if_neg hne, if_neg (by simp [hsc]), hloop]
      simpa using ih vec htail
    | EFFECT =>
      simp only [fbfGo]
      rw [hloop]
      simpa using ih vec htail

/-- C5: find_best_fit (default scope) returns at the first entry whose
lowercased key equals the query, short-circuiting; failing an exact match it
returns the first collected substring candidate in registry order; and for
every scope it returns the end-of-collection sentinel, without failing, when
no entry name and no effect name contains the query as a substring. -/
theorem find_best_fit_spec (cache : List Ingredient) (name : Str) :
    (∀ j (hj : j < cache.length), lowerStr (cache[j])._name = name →
        (∀ k (hk : k < cache.length), k < j → lowerStr (cache[k])._name ≠ name) →
        find_best_fit cache name .INGR = some (cache[j]))
    ∧ ((∀ i ∈ cache, lowerStr i._name ≠ name) →
        ∀ j (hj : j < cache.length),
          substrCond (lowerStr (cache[j])._name) name = true →
          (∀ k (hk : k < cache.length), k < j →
            substrCond (lowerStr (cache[k])._name) name = false) →
          find_best_fit cache name .INGR = some (cache[j]))
    ∧ (∀ ft, (∀ i ∈ cache, (¬∃ s r, lowerStr i._name = s ++ name ++ r)
          ∧ ∀ fx ∈ i._effects, ¬∃ s r, lowerStr fx._name = s ++ name ++ r) →
        find_best_fit cache name ft = none) := by
  refine ⟨?_, ?_, ?_⟩
  · intro j hj hx hmin
    exact fbfGo_exact_INGR name cache [] j hj hx hmin
  · intro hne j hj hp hmin
    unfold find_best_fit
    rw [fbfGo_INGR_no_exact name cache [] hne]
    simpa using filter_head_of_first cache
      (fun i => substrCond (lowerStr i._name) name) j hj hp hmin
  · intro ft h
    unfold find_best_fit
    rw [fbfGo_none name ft cache [] h]
    rfl

/-- C5 witness: in a two-entry registry whose second entry is named "ab",
the search for "ab" returns the second entry by exact key match. -/
theorem find_best_fit_spec_witness :
    find_best_fit [Ingredient.mk ("x".toList) [], Ingredient.mk ("ab".toList) []]
      ("ab".toList) .INGR
      = some ([Ingredient.mk ("x".toList) [], Ingredient.mk ("ab".toList) []][1]) :=
  (find_best_fit_spec
      [Ingredient.mk ("x".toList) [], Ingredient.mk ("ab".toList) []]
      ("ab".toList)).1 1 (by decide) (by decide) (by decide)

/- ------------------------------------------------------------------ -/
/- Registry construction lemmas -/

theorem setInsert_names_mem (l : List Ingredient) (x : Ingredient) (n : Str) :
    n ∈ (setInsert l x).1.map Ingredient._name ↔
      n = x._name ∨ n ∈ l.map Ingredient._name := by
  induction l with
  | nil => simp [setInsert]
  | cons y ys ih =>
    by_cases h1 : x._name < y._name
    · simp [setInsert, h1]
    · by_cases h2 : y._name < x._name
      · simp only [setInsert, if_neg h1, if_pos h2, List.map_cons, List.mem_cons, ih]
        tauto
      · have heq : x._name = y._name := le_antisymm (not_lt.mp h2) (not_lt.mp h1)
        simp only [setInsert, if_neg h1, if_neg h2, List.map_cons, List.mem_cons]
        constructor
        · tauto
        · rintro (rfl | h)
          · left; exact heq
          · tauto

theorem setInsert_sorted (l : List Ingredient) (x : Ingredient)
    (hs : (l.map Ingredient._name).Sorted (· < ·)) :
    ((setInsert l x).1.map Ingredient._name).Sorted (· < ·) := by
  induction l with
  | nil => simp [setInsert]
  | cons y ys ih =>
    rw [List.map_cons, List.sorted_cons] at hs
    obtain ⟨hy, hys⟩ := hs
    by_cases h1 : x._name < y._name
    · simp only [setInsert, if_pos h1, List.map_cons, List.sorted_cons]
      refine ⟨?_, hy, hys⟩
      intro b hb
      rcases List.mem_cons.mp hb with rfl | hb2
      · exact h1
      · exact lt_trans h1 (hy b hb2)
    · by_cases h2 : y._name < x._name
      · simp only [setInsert, if_neg h1, if_pos h2, List.map_cons, List.sorted_cons]
        refine ⟨?_, ih hys⟩
        intro b hb
        rcases (setInsert_names_mem ys x b).mp hb with rfl | hb2
        · exact h2
        · exact hy b hb2
      · simp only [setInsert, if_neg h1, if_neg h2, List.map_cons, List.sorted_cons]
        exact ⟨hy, hys⟩

theorem setInsert_length (l : List Ingredient) (x : Ingredient) :
    (setInsert l x).1.length = if (setInsert l x).2 then l.length + 1 else l.length := by
  induction l with
  | nil => simp [setInsert]
  | cons y ys ih =>
    by_cases h1 : x._name < y._name
    · simp [setInsert, h1]
    · by_cases h2 : y._name < x._name
      · simp only [setInsert, if_neg h1, if_pos h2, List.length_cons, ih]
        split <;> simp
      · simp [setInsert, h1, h2]

theorem names_gt_find_none (l : List Ingredient) (n : Str)
    (h : ∀ m ∈ l.map Ingredient._name, n < m) :
    l.find? (fun i => i._name = n) = none := by
  rw [List.find?_eq_none]
  intro x hx
  have := h x._name (List.mem_map_of_mem Ingredient._name hx)
  simp only [decide_eq_true_eq]
  exact fun he => absurd (he ▸ this) (lt_irrefl n)

theorem setInsert_find (l : List Ingredient) (x : Ingredient) (n : Str)
    (hs : (l.map Ingredient._name).Sorted (· < ·)) :
    (setInsert l x).1.find? (fun i => i._name = n) =
      ((l.find? (fun i => i._name = n)).or
        (if x._name = n then some x else none)) := by
  induction l with
  | nil =>
    simp only [setInsert, List.find?_nil, Option.none_or]
    by_cases hxn : x._name = n
    · simp [List.find?_cons, hxn]
    · simp [List.find?_cons, hxn]
  | cons y ys ih =>
    rw [List.map_cons, List.sorted_cons] at hs
    obtain ⟨hy, hys⟩ := hs
    by_cases h1 : x._name < y._name
    · simp only [setInsert, if_pos h1]
      by_cases hxn : x._name = n
      · have hnone : (y :: ys).find? (fun i => i._name = n) = none := by
          apply names_gt_find_none
          intro m hm
          rw [← hxn]
          rcases List.mem_cons.mp hm with rfl | hm2
          · exact h1
          · exact lt_trans h1 (hy m (by simpa using hm2))
        rw [hnone]
        simp [List.find?_cons, hxn]
      · rw [List.find?_cons, List.find?_cons]
        by_cases hyn : y._name = n
        · simp [hxn, hyn]
        · simp [hxn, hyn]
    · by_cases h2 : y._name < x._name
      · simp only [setInsert, if_neg h1, if_pos h2]
        rw [List.find?_cons, List.find?_cons]
        by_cases hyn : y._name = n
        · simp [hyn]
        · have hd : (decide (y._name = n)) = false := by simp [hyn]
          rw [hd]
          exact ih hys
      · have heq : x._name = y._name := le_antisymm (not_lt.mp h2) (not_lt.mp h1)
        simp only [setInsert, if_neg h1, if_neg h2]
        rw [List.find?_cons]
        by_cases hyn : y._name = n
        · have hxn : x._name = n := heq.trans hyn
          simp [hyn, hxn]
        · have hxn : ¬x._name = n := fun hc => hyn (heq ▸ hc)
          simp [List.find?_cons, hyn, hxn]

theorem setInsert_dup (l : List Ingredient) (x : Ingredient)
    (hs : (l.map Ingredient._name).Sorted (· < ·))
    (hmem : x._name ∈ l.map Ingredient._name) :
    setInsert l x = (l, false) := by
  induction l with
  | nil => simp at hmem
  | cons y ys ih =>
    rw [List.map_cons, List.sorted_cons] at hs
    obtain ⟨hy, hys⟩ := hs
    rcases List.mem_cons.mp hmem with heq | hm2
    · have h1 : ¬x._name < y._name := by rw [heq]; exact lt_irrefl _
      have h2 : ¬y._name < x._name := by rw [heq]; exact lt_irrefl _
      simp [setInsert, h1, h2]
    · have hlt : y._name < x._name := hy x._name hm2
      simp only [setInsert, if_neg (lt_asymm hlt), if_pos hlt]
      simp [ih hys hm2]

theorem sortFold_count_mono (l : List Ingredient) (acc : List Ingredient) (c : ℕ) :
    c ≤ (l.foldl sortStep (acc, c)).2 := by
  induction l generalizing acc c with
  | nil => exact le_refl c
  | cons it rest ih =>
    simp only [List.foldl_cons]
    have hstep : sortStep (acc, c) it
        = ((setInsert acc it).1, if (setInsert acc it).2 then c else c + 1) := rfl
    rw [hstep]
    cases hb : (setInsert acc it).2
    · simp only [hb, Bool.false_eq_true, if_false]
      exact le_trans (Nat.le_succ c) (ih (setInsert acc it).1 (c + 1))
    · simp only [hb, if_true]
      exact ih (setInsert acc it).1 c

theorem sortFold_inv (l : List Ingredient) (acc : List Ingredient) (c : ℕ)
    (hs : (acc.map Ingredient._name).Sorted (· < ·)) :
    ((l.foldl sortStep (acc, c)).1.map Ingredient._name).Sorted (· < ·)
    ∧ (∀ n, n ∈ (l.foldl sortStep (acc, c)).1.map Ingredient._name ↔
        (n ∈ acc.map Ingredient._name ∨ n ∈ l.map Ingredient._name))
    ∧ (∀ n, (l.foldl sortStep (acc, c)).1.find? (fun i => i._name = n) =
        ((acc.find? (fun i => i._name = n)).or (l.find? (fun i => i._name = n))))
    ∧ (l.foldl sortStep (acc, c)).2 + (l.foldl sortStep (acc, c)).1.length
        = c + acc.length + l.length := by
  induction l generalizing acc c with
  | nil =>
    exact ⟨hs, fun n => by simp, fun n => by simp, by simp⟩
  | cons it rest ih =>
    have hstep : sortStep (acc, c) it
        = ((setInsert acc it).1, if (setInsert acc it).2 then c else c + 1) := rfl
    simp only [List.foldl_cons, hstep]
    obtain ⟨ihs, ihmem, ihfind, ihlen⟩ :=
      ih (setInsert acc it).1 (if (setInsert acc it).2 then c else c + 1)
        (setInsert_sorted acc it hs)
    refine ⟨ihs, ?_, ?_, ?_⟩
    · intro n
      rw [ihmem n, setInsert_names_mem]
      simp only [List.map_cons, List.mem_cons]
      tauto
    · intro n
      rw [ihfind n, setInsert_find acc it n hs, List.find?_cons]
      by_cases hin : it._name = n
      · have hd : decide (it._name = n) = true := by simp [hin]
        rw [hd, if_pos hin]
        rw [Option.or_assoc]
        rfl
      · have hd : decide (it._name = n) = false := by simp [hin]
        rw [hd, if_neg hin]
        simp
    · rw [ihlen, setInsert_length]
      cases hb : (setInsert acc it).2 <;> simp [hb] <;> omega

theorem countP_name_one (res : List Ingredient)
    (hnd : (res.map Ingredient._name).Nodup) (n : Str)
    (hmem : n ∈ res.map Ingredient._name) :
    res.countP (fun i => i._name = n) = 1 := by
  induction res with
  | nil => simp at hmem
  | cons y ys ih =>
    rw [List.map_cons, List.nodup_cons] at hnd
    obtain ⟨hny, hnd2⟩ := hnd
    by_cases hy : y._name = n
    · rw [List.countP_cons_of_pos _ _ (by simp [hy])]
      have hzero : ys.countP (fun i => i._name = n) = 0 := by
        rw [List.countP_eq_zero]
        intro i hi
        simp only [decide_eq_true_eq]
        intro hc
        exact hny (by rw [hy, ← hc]; exact List.mem_map_of_mem _ hi)
      omega
    · rw [List.countP_cons_of_neg _ _ (by simp [hy])]
      apply ih hnd2
      rcases List.mem_cons.mp hmem with heq | hm2
      · exact absurd heq.symm hy
      · exact hm2

/-- C3 counterexample: Registry construction is not permutation-invariant
as a collection of full records: two ingredients sharing the key "A" but
differing in their effects produce different surviving representatives
under the two orders (the first-inserted wins), though the duplicate
counts agree. -/
theorem cacheSort_perm_counterexample :
    ([Ingredient.mk ("A".toList) [Effect.mk ("e".toList) 0 0 []],
      Ingredient.mk ("A".toList) []].Perm
      [Ingredient.mk ("A".toList) [],
       Ingredient.mk ("A".toList) [Effect.mk ("e".toList) 0 0 []]])
    ∧ (cacheSort [Ingredient.mk ("A".toList) [Effect.mk ("e".toList) 0 0 []],
        Ingredient.mk ("A".toList) []]).1
      ≠ (cacheSort [Ingredient.mk ("A".toList) [],
        Ingredient.mk ("A".toList) [Effect.mk ("e".toList) 0 0 []]]).1
    ∧ (cacheSort [Ingredient.mk ("A".toList) [Effect.mk ("e".toList) 0 0 []],
        Ingredient.mk ("A".toList) []]).2
      = (cacheSort [Ingredient.mk ("A".toList) [],
        Ingredient.mk ("A".toList) [Effect.mk ("e".toList) 0 0 []]]).2 := by
  refine ⟨List.Perm.swap _ _ _, by decide, by decide⟩

/-- C3 (amended): for any permutation of the input ingredient list the
resulting ordered key sequence (the names, in order) and the duplicate
count are identical; the full record collection may differ when two
distinct inputs share a key, since the first-inserted representative is
kept. -/
theorem cacheSort_perm_amended (l1 l2 : List Ingredient) (h : l1.Perm l2) :
    (cacheSort l1).1.map Ingredient._name = (cacheSort l2).1.map Ingredient._name
    ∧ (cacheSort l1).2 = (cacheSort l2).2 := by
  unfold cacheSort
  obtain ⟨hs1, hmem1, _, hlen1⟩ := sortFold_inv l1 [] 0 (by simp)
  obtain ⟨hs2, hmem2, _, hlen2⟩ := sortFold_inv l2 [] 0 (by simp)
  haveI hanti : IsAntisymm Str (· < ·) := ⟨fun a b h1 h2 => absurd h2 (lt_asymm h1)⟩
  haveI hirr : IsIrrefl Str (· < ·) := ⟨fun a => lt_irrefl a⟩
  have hnames : (l1.foldl sortStep ([], 0)).1.map Ingredient._name
      = (l2.foldl sortStep ([], 0)).1.map Ingredient._name := by
    apply List.eq_of_perm_of_sorted ?_ hs1 hs2
    apply (List.perm_ext_iff_of_nodup hs1.nodup hs2.nodup).mpr
    intro n
    rw [hmem1 n, hmem2 n]
    simp only [List.map_nil, List.not_mem_nil, false_or]
    exact (h.map Ingredient._name).mem_iff
  refine ⟨hnames, ?_⟩
  have hlength : (l1.foldl sortStep ([], 0)).1.length
      = (l2.foldl sortStep ([], 0)).1.length := by
    have := congrArg List.length hnames
    simpa using this
  have hpl := h.length_eq
  simp only [List.length_nil] at hlen1 hlen2
  omega

/-- C3 witness: the amended statement at a concrete transposition of two
distinct ingredients. -/
theorem cacheSort_perm_amended_witness :
    (cacheSort [Ingredient.mk ("b".toList) [], Ingredient.mk ("a".toList) []]).1.map
        Ingredient._name
      = (cacheSort [Ingredient.mk ("a".toList) [], Ingredient.mk ("b".toList) []]).1.map
        Ingredient._name
    ∧ (cacheSort [Ingredient.mk ("b".toList) [], Ingredient.mk ("a".toList) []]).2
      = (cacheSort [Ingredient.mk ("a".toList) [], Ingredient.mk ("b".toList) []]).2 :=
  cacheSort_perm_amended
    [Ingredient.mk ("b".toList) [], Ingredient.mk ("a".toList) []]
    [Ingredient.mk ("a".toList) [], Ingredient.mk ("b".toList) []]
    (List.Perm.swap _ _ _)

theorem sortStep_dup (p : List Ingredient × ℕ) (b : Ingredient)
    (hs : (p.1.map Ingredient._name).Sorted (· < ·))
    (hb : b._name ∈ p.1.map Ingredient._name) :
    sortStep p b = (p.1, p.2 + 1) := by
  have hdup := setInsert_dup p.1 b hs hb
  unfold sortStep
  rw [hdup]
  rfl

/-- C6: when the input contains two entries with the same ordering key,
Registry construction keeps exactly one entry with that key - the
first-occurring one, returned untouched by the lookup - the duplicate
count is at least 1, and the counter accounts for exactly one increment
per rejected insertion (count plus surviving size equals input size). -/
theorem cacheSort_duplicate_spec (l1 l2 l3 : List Ingredient) (a b : Ingredient)
    (hab : a._name = b._name) :
    (cacheSort (l1 ++ a :: l2 ++ b :: l3)).1.countP (fun i => i._name = a._name) = 1
    ∧ (cacheSort (l1 ++ a :: l2 ++ b :: l3)).1.find? (fun i => i._name = a._name)
        = (l1 ++ a :: l2 ++ b :: l3).find? (fun i => i._name = a._name)
    ∧ 1 ≤ (cacheSort (l1 ++ a :: l2 ++ b :: l3)).2
    ∧ (cacheSort (l1 ++ a :: l2 ++ b :: l3)).2
        + (cacheSort (l1 ++ a :: l2 ++ b :: l3)).1.length
        = (l1 ++ a :: l2 ++ b :: l3).length := by
  unfold cacheSort
  obtain ⟨hs, hmem, hfind, hlen⟩ :=
    sortFold_inv (l1 ++ a :: l2 ++ b :: l3) [] 0 (by simp)
  haveI hirr : IsIrrefl Str (· < ·) := ⟨fun x => lt_irrefl x⟩
  refine ⟨?_, ?_, ?_, ?_⟩
  · apply countP_name_one _ hs.nodup
    rw [hmem]
    right
    exact List.mem_map_of_mem _ (by simp)
  · rw [hfind]
    simp
  · have hdecomp : l1 ++ a :: l2 ++ b :: l3 = (l1 ++ a :: l2) ++ b :: l3 := by
      simp
    rw [hdecomp, List.foldl_append]
    obtain ⟨hsM, hmemM, _, _⟩ := sortFold_inv (l1 ++ a :: l2) [] 0 (by simp)
    have haM : b._name ∈ ((l1 ++ a :: l2).foldl sortStep ([], 0)).1.map
        Ingredient._name := by
      rw [hmemM]
      right
      rw [← hab]
      exact List.mem_map_of_mem _ (by simp)
    rw [List.foldl_cons, sortStep_dup ((l1 ++ a :: l2).foldl sortStep ([], 0)) b hsM haM]
    have hmono := sortFold_count_mono l3
      ((l1 ++ a :: l2).foldl sortStep ([], 0)).1
      (((l1 ++ a :: l2).foldl sortStep ([], 0)).2 + 1)
    omega
  · simpa using hlen

/-- C6 witness: a concrete two-element input whose entries share the key
"A" keeps exactly one of them, and the duplicate count checks out. -/
theorem cacheSort_duplicate_spec_witness :
    (cacheSort ([] ++ Ingredient.mk ("A".toList) [] :: [] ++ Ingredient.mk ("A".toList) [] :: [])).1.countP
        (fun i => i._name = (Ingredient.mk ("A".toList) [])._name) = 1
    ∧ (cacheSort ([] ++ Ingredient.mk ("A".toList) [] :: [] ++ Ingredient.mk ("A".toList) [] :: [])).1.find?
        (fun i => i._name = (Ingredient.mk ("A".toList) [])._name)
      = ([] ++ Ingredient.mk ("A".toList) [] :: [] ++ Ingredient.mk ("A".toList) [] :: []).find?
        (fun i => i._name = (Ingredient.mk ("A".toList) [])._name)
    ∧ 1 ≤ (cacheSort ([] ++ Ingredient.mk ("A".toList) [] :: [] ++ Ingredient.mk ("A".toList) [] :: [])).2
    ∧ (cacheSort ([] ++ Ingredient.mk ("A".toList) [] :: [] ++ Ingredient.mk ("A".toList) [] :: [])).2
        + (cacheSort ([] ++ Ingredient.mk ("A".toList) [] :: [] ++ Ingredient.mk ("A".toList) [] :: [])).1.length
      = ([] ++ Ingredient.mk ("A".toList) [] :: [] ++ Ingredient.mk ("A".toList) [] :: []).length :=
  cacheSort_duplicate_spec [] [] []
    (Ingredient.mk ("A".toList) []) (Ingredient.mk ("A".toList) []) rfl

/- ------------------------------------------------------------------ -/
/- Effect merge lemmas (Potion.hpp, get_common_effects) -/

theorem find?_eq_filter_head {α : Type} (p : α → Bool) (l : List α) :
    l.find? p = (l.filter p).head? := by
  induction l with
  | nil => rfl
  | cons a t ih =>
    rw [List.find?_cons, List.filter_cons]
    cases hb : p a
    · exact ih
    · rfl

theorem sightings_append (p : List Effect) (e : Effect) (n : Str) :
    sightings (p ++ [e]) n
      = sightings p n ++ (if e._name = n then [e] else []) := by
  unfold sightings
  rw [List.filter_append]
  congr 1
  by_cases hb : e._name = n <;> simp [hb]

theorem confirmationOrder_append (p : List Effect) (e : Effect) :
    confirmationOrder (p ++ [e])
      = confirmationOrder p
        ++ (if p.countP (fun x => x._name = e._name) = 1 then [e._name] else []) := by
  unfold confirmationOrder
  have hlen : (p ++ [e]).length = p.length + 1 := by simp
  rw [hlen, List.range_succ, List.filter_append, List.map_append]
  have hsame : ∀ i, i < p.length →
      ((p ++ [e]).take (i + 1) = p.take (i + 1)
        ∧ (p ++ [e]).getD i default = p.getD i default) := by
    intro i hi
    constructor
    · exact List.take_append_of_le_length (by omega)
    · rw [List.getD_eq_getElem?_getD, List.getD_eq_getElem?_getD,
        List.getElem?_append_left hi]
  congr 1
  · have hfeq : List.filter
        (fun i => ((p ++ [e]).take (i + 1)).countP
          (fun x => x._name = ((p ++ [e]).getD i default)._name) = 2)
        (List.range p.length)
        = List.filter
        (fun i => (p.take (i + 1)).countP
          (fun x => x._name = (p.getD i default)._name) = 2)
        (List.range p.length) := by
      apply List.filter_congr
      intro i hi
      obtain ⟨ht, hg⟩ := hsame i (List.mem_range.mp hi)
      rw [ht, hg]
    rw [hfeq]
    apply List.map_congr_left
    intro i hi
    have hjr : i < p.length := List.mem_range.mp (List.mem_of_mem_filter hi)
    rw [(hsame i hjr).2]
  · have hg : (p ++ [e]).getD p.length default = e := by
      rw [List.getD_eq_getElem?_getD, List.getElem?_concat_length]
      rfl
    have ht : (p ++ [e]).take (p.length + 1) = p ++ [e] :=
      List.take_of_length_le (by simp)
    have hc : ((p ++ [e]).take (p.length + 1)).countP
        (fun x => x._name = ((p ++ [e]).getD p.length default)._name)
        = p.countP (fun x => x._name = e._name) + 1 := by
      rw [ht, hg, List.countP_append]
      simp
    rw [List.filter_cons, List.filter_nil]
    by_cases hone : p.countP (fun x => x._name = e._name) = 1
    · rw [if_pos (by simp only [decide_eq_true_eq]; rw [hc]; omega)]
      rw [if_pos hone]
      simp [hg]
    · rw [if_neg (by simp only [decide_eq_true_eq]; rw [hc]; omega)]
      rw [if_neg hone]
      simp

theorem confirmationOrder_mem (p : List Effect) (n : Str) :
    n ∈ confirmationOrder p ↔ 2 ≤ p.countP (fun x => x._name = n) := by
  induction p using List.reverseRecOn with
  | nil => simp [confirmationOrder]
  | append_singleton q e ih =>
    rw [confirmationOrder_append, List.countP_append, List.mem_append]
    by_cases he : e._name = n
    · subst he
      rw [ih]
      have hc1 : List.countP (fun x => decide (x._name = e._name)) [e] = 1 := by simp
      rw [hc1]
      by_cases h1 : q.countP (fun x => x._name = e._name) = 1
      · rw [if_pos h1]
        simp only [List.mem_singleton]
        constructor
        · intro _
          omega
        · intro _
          right
          trivial
      · rw [if_neg h1]
        simp only [List.not_mem_nil, or_false]
        omega
    · have hc0 : List.countP (fun x => decide (x._name = n)) [e] = 0 := by simp [he]
      rw [ih, hc0]
      have hmem : n ∉ (if q.countP (fun x => x._name = e._name) = 1
          then [e._name] else []) := by
        split
        · simp only [List.mem_singleton]
          exact fun h => he h.symm
        · simp
      simp [hmem]

theorem confirmationOrder_nodup (p : List Effect) :
    (confirmationOrder p).Nodup := by
  induction p using List.reverseRecOn with
  | nil => simp [confirmationOrder]
  | append_singleton q e ih =>
    rw [confirmationOrder_append, List.nodup_append]
    refine ⟨ih, by split <;> simp, ?_⟩
    intro a ha hb
    split at hb
    · rename_i h1
      simp only [List.mem_singleton] at hb
      subst hb
      have := (confirmationOrder_mem q e._name).mp ha
      omega
    · simp at hb

theorem updateFirst_names (l : List Effect) (fx : Effect) :
    (updateFirst l fx).map Effect._name = l.map Effect._name := by
  induction l with
  | nil => rfl
  | cons c cs ih =>
    by_cases h : c._name = fx._name
    · simp [updateFirst, h, bumpEffect]
    · simp [updateFirst, h, ih]

theorem updateFirst_mem_nodup (l : List Effect) (fx : Effect)
    (hnd : (l.map Effect._name).Nodup) :
    ∀ c2 ∈ updateFirst l fx,
      (c2 ∈ l ∧ c2._name ≠ fx._name)
      ∨ (∃ c0, c0 ∈ l ∧ c0._name = fx._name ∧ c2 = bumpEffect c0 fx) := by
  induction l with
  | nil =>
    intro c2 h
    simp [updateFirst] at h
  | cons c cs ih =>
    rw [List.map_cons, List.nodup_cons] at hnd
    obtain ⟨hcn, hnd2⟩ := hnd
    intro c2 h2
    by_cases h : c._name = fx._name
    · rw [updateFirst, if_pos h] at h2
      rcases List.mem_cons.mp h2 with rfl | hmem
      · exact Or.inr ⟨c, List.mem_cons_self c cs, h, rfl⟩
      · refine Or.inl ⟨List.mem_cons_of_mem c hmem, ?_⟩
        intro hcon
        exact hcn (by
          rw [← h] at hcon
          rw [← hcon]
          exact List.mem_map_of_mem _ hmem)
    · rw [updateFirst, if_neg h] at h2
      rcases List.mem_cons.mp h2 with rfl | hmem
      · exact Or.inl ⟨List.mem_cons_self c2 cs, h⟩
      · rcases ih hnd2 c2 hmem with ⟨hin, hne⟩ | ⟨c0, hc0, hc0n, hc0e⟩
        · exact Or.inl ⟨List.mem_cons_of_mem c hin, hne⟩
        · exact Or.inr ⟨c0, List.mem_cons_of_mem c hc0, hc0n, hc0e⟩

theorem gce_fold_eq (ingr : List Ingredient) (st : List Effect × List Effect) :
    ingr.foldl (fun s i => i._effects.foldl gceStep s) st
      = (effectStream ingr).foldl gceStep st := by
  induction ingr generalizing st with
  | nil => rfl
  | cons i rest ih =>
    show rest.foldl _ (i._effects.foldl gceStep st) = _
    have hs : effectStream (i :: rest) = i._effects ++ effectStream rest := rfl
    rw [hs, List.foldl_append]
    exact ih _

theorem gceStep_new (st : List Effect × List Effect) (e : Effect)
    (h : st.1.find? (fun x => x._name = e._name) = none) :
    gceStep st e = (st.1 ++ [e], st.2) := by
  unfold gceStep
  rw [h]

theorem gceStep_promote (st : List Effect × List Effect) (e s1 : Effect)
    (h1 : st.1.find? (fun x => x._name = e._name) = some s1)
    (h2 : st.2.find? (fun x => x._name = e._name) = none) :
    gceStep st e
      = (st.1, st.2 ++ [if e._magnitude < s1._magnitude then s1 else e]) := by
  unfold gceStep
  rw [h1, h2]

theorem gceStep_update (st : List Effect × List Effect) (e s1 cf : Effect)
    (h1 : st.1.find? (fun x => x._name = e._name) = some s1)
    (h2 : st.2.find? (fun x => x._name = e._name) = some cf) :
    gceStep st e = (st.1, updateFirst st.2 e) := by
  unfold gceStep
  rw [h1, h2]

theorem gce_invariant (p : List Effect) :
    (∀ n, (p.foldl gceStep ([], [])).1.find? (fun x => x._name = n)
        = (sightings p n).head?)
    ∧ (p.foldl gceStep ([], [])).2.map Effect._name = confirmationOrder p
    ∧ (∀ c ∈ (p.foldl gceStep ([], [])).2,
        c._magnitude = maxMagOf p c._name ∧ c._duration = durOf p c._name) := by
  induction p using List.reverseRecOn with
  | nil =>
    refine ⟨fun n => rfl, by simp [confirmationOrder], ?_⟩
    intro c hc
    simp at hc
  | append_singleton p e ih =>
    obtain ⟨ihT, ihN, ihC⟩ := ih
    rw [List.foldl_append, List.foldl_cons, List.foldl_nil]
    have hT := ihT e._name
    have hcount : p.countP (fun x => x._name = e._name)
        = (sightings p e._name).length := List.countP_eq_length_filter _ _
    rcases hsit : sightings p e._name with _ | ⟨s1, rest1⟩
    · -- first sighting of this name
      have hTnone : (p.foldl gceStep ([], [])).1.find?
          (fun x => x._name = e._name) = none := by
        rw [hT, hsit]
        rfl
      rw [gceStep_new _ e hTnone]
      have hcnt0 : p.countP (fun x => x._name = e._name) = 0 := by
        rw [hcount, hsit]
        rfl
      refine ⟨?_, ?_, ?_⟩
      · intro n
        rw [List.find?_append, ihT n, sightings_append]
        by_cases hn : e._name = n
        · subst hn
          rw [hsit]
          simp [List.find?_cons]
        · rw [if_neg hn, List.append_nil]
          have hfe : List.find? (fun x => x._name = n) [e] = none := by
            simp [List.find?_cons, hn]
          rw [hfe]
          simp
      · rw [ihN, confirmationOrder_append, hcnt0]
        simp
      · intro c hc
        have hcn : c._name ≠ e._name := by
          intro hceq
          have hmem : c._name ∈ (p.foldl gceStep ([], [])).2.map Effect._name :=
            List.mem_map_of_mem _ hc
          rw [ihN, confirmationOrder_mem] at hmem
          rw [hceq] at hmem
          omega
        obtain ⟨hmag, hdur⟩ := ihC c hc
        constructor
        · rw [hmag]
          unfold maxMagOf
          rw [sightings_append, if_neg (fun hh => hcn hh.symm), List.append_nil]
        · rw [hdur]
          unfold durOf
          rw [sightings_append, if_neg (fun hh => hcn hh.symm), List.append_nil]
    · -- at least one prior sighting
      have hTsome : (p.foldl gceStep ([], [])).1.find?
          (fun x => x._name = e._name) = some s1 := by
        rw [hT, hsit]
        rfl
      have hs1name : s1._name = e._name := by
        have hmem : s1 ∈ sightings p e._name := by
          rw [hsit]
          exact List.mem_cons_self _ _
        have := List.mem_filter.mp hmem
        simpa using this.2
      rcases hrest : rest1 with _ | ⟨s2, rest2⟩
      · -- exactly one prior sighting: promotion
        subst hrest
        have hcnt1 : p.countP (fun x => x._name = e._name) = 1 := by
          rw [hcount, hsit]
          rfl
        have hnotmem : e._name ∉ (p.foldl gceStep ([], [])).2.map Effect._name := by
          rw [ihN, confirmationOrder_mem]
          omega
        have hCnone : (p.foldl gceStep ([], [])).2.find?
            (fun x => x._name = e._name) = none := by
          rw [List.find?_eq_none]
          intro x hx
          simp only [decide_eq_true_eq]
          intro hxe
          exact hnotmem (hxe ▸ List.mem_map_of_mem _ hx)
        rw [gceStep_promote _ e s1 hTsome hCnone]
        have hpromoname : (if e._magnitude < s1._magnitude then s1 else e)._name
            = e._name := by
          split
          · exact hs1name
          · rfl
        refine ⟨?_, ?_, ?_⟩
        · intro n
          rw [ihT n, sightings_append]
          by_cases hn : e._name = n
          · subst hn
            rw [hsit]
            rfl
          · rw [if_neg hn, List.append_nil]
        · rw [List.map_append, ihN, confirmationOrder_append, hcnt1]
          simp [hpromoname]
        · intro c hc
          rcases List.mem_append.mp hc with hold | hnew
          · have hcn : c._name ≠ e._name := by
              intro hceq
              exact hnotmem (hceq ▸ List.mem_map_of_mem _ hold)
            obtain ⟨hmag, hdur⟩ := ihC c hold
            constructor
            · rw [hmag]
              unfold maxMagOf
              rw [sightings_append, if_neg (fun hh => hcn hh.symm), List.append_nil]
            · rw [hdur]
              unfold durOf
              rw [sightings_append, if_neg (fun hh => hcn hh.symm), List.append_nil]
          · simp only [List.mem_singleton] at hnew
            subst hnew
            rw [hpromoname]
            have hsitnew : sightings (p ++ [e]) e._name = [s1, e] := by
              rw [sightings_append, hsit, if_pos rfl]
              rfl
            constructor
            · unfold maxMagOf
              rw [hsitnew]
              show (if e._magnitude < s1._magnitude then s1 else e)._magnitude
                  = max s1._magnitude e._magnitude
              split
              · rename_i h
                exact (max_eq_left (le_of_lt h)).symm
              · rename_i h
                exact (max_eq_right (not_lt.mp h)).symm
            · unfold durOf
              rw [hsitnew]
              show (if e._magnitude < s1._magnitude then s1 else e)._duration
                  = if e._magnitude < s1._magnitude then s1._duration else e._duration
              split
              · rfl
              · rfl
      · -- two or more prior sightings: running maximum update
        subst hrest
        have hcnt2 : 2 ≤ p.countP (fun x => x._name = e._name) := by
          rw [hcount, hsit]
          simp
        have hmemN : e._name ∈ (p.foldl gceStep ([], [])).2.map Effect._name := by
          rw [ihN, confirmationOrder_mem]
          exact hcnt2
        obtain ⟨c0, hc0mem, hc0name⟩ := List.mem_map.mp hmemN
        have hCisSome : (((p.foldl gceStep ([], [])).2.find?
            (fun x => x._name = e._name))).isSome = true := by
          rw [List.find?_isSome]
          exact ⟨c0, hc0mem, by simp [hc0name]⟩
        obtain ⟨cf, hcf⟩ := Option.isSome_iff_exists.mp hCisSome
        rw [gceStep_update _ e s1 cf hTsome hcf]
        have hndN : ((p.foldl gceStep ([], [])).2.map Effect._name).Nodup := by
          rw [ihN]
          exact confirmationOrder_nodup p
        refine ⟨?_, ?_, ?_⟩
        · intro n
          rw [ihT n, sightings_append]
          by_cases hn : e._name = n
          · subst hn
            rw [hsit]
            rfl
          · rw [if_neg hn, List.append_nil]
        · rw [updateFirst_names, ihN, confirmationOrder_append,
            if_neg (by omega)]
          simp
        · intro c2 hc2
          have hsitnew : sightings (p ++ [e]) e._name
              = s1 :: s2 :: (rest2 ++ [e]) := by
            rw [sightings_append, hsit, if_pos rfl]
            rfl
          rcases updateFirst_mem_nodup _ e hndN c2 hc2 with
            ⟨hold, hne⟩ | ⟨c0b, hc0b, hc0bn, rfl⟩
          · obtain ⟨hmag, hdur⟩ := ihC c2 hold
            constructor
            · rw [hmag]
              unfold maxMagOf
              rw [sightings_append, if_neg (fun hh => hne hh.symm), List.append_nil]
            · rw [hdur]
              unfold durOf
              rw [sightings_append, if_neg (fun hh => hne hh.symm), List.append_nil]
          · obtain ⟨hmag0, hdur0⟩ := ihC c0b hc0b
            rw [hc0bn] at hmag0 hdur0
            have hbname : (bumpEffect c0b e)._name = c0b._name := rfl
            rw [hbname, hc0bn]
            have hdefm : maxMagOf (p ++ [e]) e._name
                = max (maxMagOf p e._name) e._magnitude := by
              unfold maxMagOf
              rw [hsitnew, hsit]
              show List.foldl (fun m x => max m x._magnitude) s1._magnitude
                    (s2 :: (rest2 ++ [e]))
                  = max (List.foldl (fun m x => max m x._magnitude) s1._magnitude
                    (s2 :: rest2)) e._magnitude
              rw [List.foldl_cons, List.foldl_cons, List.foldl_append]
              rfl
            have hdefd : durOf (p ++ [e]) e._name
                = max (durOf p e._name) e._duration := by
              unfold durOf
              rw [hsitnew, hsit]
              show List.foldl (fun d x => max d x._duration)
                    (if s2._magnitude < s1._magnitude then s1._duration
                      else s2._duration) (rest2 ++ [e])
                  = max (List.foldl (fun d x => max d x._duration)
                    (if s2._magnitude < s1._magnitude then s1._duration
                      else s2._duration) rest2) e._duration
              rw [List.foldl_append]
              rfl
            constructor
            · rw [hdefm, ← hmag0]
              show (if e._magnitude > c0b._magnitude then e._magnitude
                  else c0b._magnitude) = max c0b._magnitude e._magnitude
              split
              · rename_i h
                exact (max_eq_right (le_of_lt h)).symm
              · rename_i h
                exact (max_eq_left (not_lt.mp h)).symm
            · rw [hdefd, ← hdur0]
              show (if e._duration > c0b._duration then e._duration
                  else c0b._duration) = max c0b._duration e._duration
              split
              · rename_i h
                exact (max_eq_right (le_of_lt h)).symm
              · rename_i h
                exact (max_eq_left (not_lt.mp h)).symm

/-- C1 counterexample: the merged duration is not the maximum duration
observed across all sightings: with sightings (magnitude 10, duration 100)
then (magnitude 20, duration 5) of the same effect name, the promotion
keeps the record of the higher-magnitude sighting whole, so the output
duration is 5 while the maximum observed duration is 100. -/
theorem get_common_effects_duration_counterexample :
    get_common_effects
      [Ingredient.mk ("i1".toList) [Effect.mk ("E".toList) 10 100 []],
       Ingredient.mk ("i2".toList) [Effect.mk ("E".toList) 20 5 []]]
      = .ok [Effect.mk ("E".toList) 20 5 []]
    ∧ maxDurAll (effectStream
        [Ingredient.mk ("i1".toList) [Effect.mk ("E".toList) 10 100 []],
         Ingredient.mk ("i2".toList) [Effect.mk ("E".toList) 20 5 []]])
        ("E".toList) = 100 := by
  decide

/-- C1 (amended): for every accepted list of ingredients, the merge returns
exactly the effects whose name is sighted at least twice across the effect
slots in input order (for well-formed data, on at least 2 ingredients), in
first-confirmation order; each carries the maximum magnitude over all of
its sightings, while its duration is the running maximum starting from the
promotion value, which is the duration of whichever of the first two
sightings has the larger magnitude (the second on ties).  In particular the
two-ingredient Fire Damage example yields magnitude 20, and disjoint
ingredients yield the empty list. -/
theorem get_common_effects_merge_amended (ingr : List Ingredient)
    (res : List Effect) (hok : get_common_effects ingr = .ok res) :
    res.map Effect._name = confirmationOrder (effectStream ingr)
    ∧ (∀ c ∈ res, c._magnitude = maxMagOf (effectStream ingr) c._name
        ∧ c._duration = durOf (effectStream ingr) c._name)
    ∧ get_common_effects
        [Ingredient.mk ("i1".toList) [Effect.mk ("Fire Damage".toList) 10 0 []],
         Ingredient.mk ("i2".toList) [Effect.mk ("Fire Damage".toList) 20 0 []]]
        = .ok [Effect.mk ("Fire Damage".toList) 20 0 []]
    ∧ get_common_effects
        [Ingredient.mk ("i1".toList) [Effect.mk ("ea".toList) 1 1 []],
         Ingredient.mk ("i2".toList) [Effect.mk ("eb".toList) 2 2 []]]
        = .ok [] := by
  unfold get_common_effects at hok
  split_ifs at hok
  cases hok
  rw [gce_fold_eq]
  obtain ⟨_, hN, hC⟩ := gce_invariant (effectStream ingr)
  exact ⟨hN, hC, by decide, by decide⟩

/-- C1 witness: the amended characterization at the two-ingredient Fire
Damage example. -/
theorem get_common_effects_merge_amended_witness :
    [Effect.mk ("Fire Damage".toList) 20 0 []].map Effect._name
        = confirmationOrder (effectStream
            [Ingredient.mk ("i1".toList) [Effect.mk ("Fire Damage".toList) 10 0 []],
             Ingredient.mk ("i2".toList) [Effect.mk ("Fire Damage".toList) 20 0 []]])
    ∧ (∀ c ∈ [Effect.mk ("Fire Damage".toList) 20 0 []],
        c._magnitude = maxMagOf (effectStream
            [Ingredient.mk ("i1".toList) [Effect.mk ("Fire Damage".toList) 10 0 []],
             Ingredient.mk ("i2".toList) [Effect.mk ("Fire Damage".toList) 20 0 []]])
          c._name
        ∧ c._duration = durOf (effectStream
            [Ingredient.mk ("i1".toList) [Effect.mk ("Fire Damage".toList) 10 0 []],
             Ingredient.mk ("i2".toList) [Effect.mk ("Fire Damage".toList) 20 0 []]])
          c._name)
    ∧ get_common_effects
        [Ingredient.mk ("i1".toList) [Effect.mk ("Fire Damage".toList) 10 0 []],
         Ingredient.mk ("i2".toList) [Effect.mk ("Fire Damage".toList) 20 0 []]]
        = .ok [Effect.mk ("Fire Damage".toList) 20 0 []]
    ∧ get_common_effects
        [Ingredient.mk ("i1".toList) [Effect.mk ("ea".toList) 1 1 []],
         Ingredient.mk ("i2".toList) [Effect.mk ("eb".toList) 2 2 []]]
        = .ok [] :=
  get_common_effects_merge_amended
    [Ingredient.mk ("i1".toList) [Effect.mk ("Fire Damage".toList) 10 0 []],
     Ingredient.mk ("i2".toList) [Effect.mk ("Fire Damage".toList) 20 0 []]]
    [Effect.mk ("Fire Damage".toList) 20 0 []] (by decide)
